import Mathlib

/-!
Shallow embedding of the joncalhoun-dl course downloader (scraper.py,
downloader.py) and verification of the specification claims.

HTML documents are abstracted to the data the code actually inspects:
a course page is a list of `div` containers (each with an optional id,
the text of its first `h3` heading if any, and its anchor tags in
document order); a lesson page is a list of anchor tags.  Filesystem
state is the list of existing file paths; network behaviour is an
oracle (`World`).  Python `dict` (insertion-ordered, value replacement
on key reassignment) is modelled by an association list.
-/

/-! ### Character and substring primitives (models of Python str ops) -/

/-- Model of `str.startswith`: `leadMatch pat s` is true when `pat` is an
initial run of `s`. -/
def leadMatch : List Char → List Char → Bool
  | [], _ => true
  | _ :: _, [] => false
  | p :: ps, c :: cs => p == c && leadMatch ps cs

/-- Model of the Python `in` substring test: `hasSub pat s` is true when
`pat` occurs contiguously inside `s`. -/
def hasSub (pat : List Char) : List Char → Bool
  | [] => leadMatch pat []
  | c :: r => leadMatch pat (c :: r) || hasSub pat r

/-- Leading-whitespace removal, one half of Python `str.strip()`. -/
def dropLead (l : List Char) : List Char := l.dropWhile Char.isWhitespace

/-- Trailing-whitespace removal, the other half of Python `str.strip()`. -/
def dropTrail (l : List Char) : List Char :=
  (l.reverse.dropWhile Char.isWhitespace).reverse

/-- Model of Python `str.strip()` (no arguments): remove leading and
trailing whitespace. -/
def stripChars (l : List Char) : List Char := dropTrail (dropLead l)

/-- Model of Python `str.replace(a, b)` for single characters. -/
def replaceCh (a b : Char) (l : List Char) : List Char :=
  l.map (fun c => if c = a then b else c)

/-- The sanitization expression the scraper applies to every section
heading and lesson link text:
`text.strip().replace("/", "_").replace(" ", "_")`
(scraper.py lines 46 and 59). -/
def sanitizeText (s : String) : String :=
  String.mk (replaceCh ' ' '_' (replaceCh '/' '_' (stripChars s.data)))

/-! ### Scraper data model (scraper.py) -/

/-- An anchor tag with an `href` attribute: its visible text and target. -/
structure ATag where
  text : String
  href : String
deriving DecidableEq

/-- A `div` container of the course page: its `id` attribute (if present),
the text of the first `h3` heading inside it (if any), and its anchor
tags with `href`, in document order. -/
structure DivTag where
  id : Option String
  h3 : Option String
  links : List ATag
deriving DecidableEq

def BASE_URL : String := "https://courses.calhoun.io"

/-- The filter `id=lambda x: x and x.startswith(course_prefix)` used by
`soup.find_all("div", id=...)`: the id exists, is non-empty (Python
truthiness) and starts with the marker. -/
def isSectionDiv (pfx : String) (d : DivTag) : Bool :=
  match d.id with
  | some x => !x.data.isEmpty && leadMatch pfx.data x.data
  | none => false

/-- `soup.find_all("div", id=lambda x: x and x.startswith(course_prefix))`:
the structural container nodes, in document order. -/
def sectionDivs (doc : List DivTag) (pfx : String) : List DivTag :=
  doc.filter (isSectionDiv pfx)

/-- `extract_section_name` (scraper.py 35-47): the sanitized text of the
first `h3` inside the div, or `"Uncategorized"` when there is none. -/
def extract_section_name (d : DivTag) : String :=
  match d.h3 with
  | some t => sanitizeText t
  | none => "Uncategorized"

/-- `extract_lesson_details` (scraper.py 50-61): sanitized link text and
the absolute URL built from the base origin and the relative target. -/
def extract_lesson_details (a : ATag) : String × String :=
  (sanitizeText a.text, BASE_URL ++ a.href)

/-- The test `"/lessons/" in lesson_link["href"]` (scraper.py 87). -/
def lessonLink (a : ATag) : Bool := hasSub "/lessons/".data a.href.data

/-- The section map: Python `Dict[str, List[Tuple[str, str]]]`, an
insertion-ordered association list. -/
abbrev SectionMap := List (String × List (String × String))

/-- Python `d[k] = v` on an insertion-ordered dict: replace the value at
the first (unique) occurrence of the key, keeping its position, or append
a new entry at the end. -/
def dictSet (m : SectionMap) (k : String) (v : List (String × String)) : SectionMap :=
  match m with
  | [] => [(k, v)]
  | (k', v') :: rest =>
    if k' = k then (k', v) :: rest else (k', v') :: dictSet rest k v

/-- Python `d[k].append(x)`: extend the sequence at the first occurrence
of the key (a no-op if the key is absent; the scraper always sets the key
first). -/
def dictAppend (m : SectionMap) (k : String) (x : String × String) : SectionMap :=
  match m with
  | [] => []
  | (k', v') :: rest =>
    if k' = k then (k', v' ++ [x]) :: rest else (k', v') :: dictAppend rest k x

/-- The body of the outer `for section_div in section_divs[1:]` loop
(scraper.py 81-89): register the section under its sanitized name with a
fresh empty list, then append each matching lesson link. -/
def processDiv (acc : SectionMap) (d : DivTag) : SectionMap :=
  let name := extract_section_name d
  (d.links.foldl
    (fun a lnk =>
      if lessonLink lnk then dictAppend a name (extract_lesson_details lnk) else a)
    (dictSet acc name []))

/-- The matching lessons of one container, in document order, as the loop
body produces them. -/
def lessonsOf (d : DivTag) : List (String × String) :=
  (d.links.filter lessonLink).map extract_lesson_details

/-- `extract_sections_and_lessons` (scraper.py 64-95).  The first
qualifying container is skipped unconditionally (`section_divs[1:]`);
`ValueError("No lessons available for download.")` is raised when the
resulting dict is empty. -/
def extract_sections_and_lessons (doc : List DivTag) (pfx : String) :
    Except String SectionMap :=
  let sections := ((sectionDivs doc pfx).drop 1).foldl processDiv []
  if sections.isEmpty then Except.error "No lessons available for download."
  else Except.ok sections

/-- `find_mp4_link` (scraper.py 123-136): first anchor whose target
contains `files/<course prefix>`, made absolute; empty string otherwise. -/
def find_mp4_link (links : List ATag) (pfx : String) : String :=
  match links with
  | [] => ""
  | a :: rest =>
    if hasSub ("files/" ++ pfx).data a.href.data then BASE_URL ++ a.href
    else find_mp4_link rest pfx

/-! ### Path planning (downloader.py) -/

/-- Decimal digit characters of a natural number (most significant
first); empty for `0`, matching the padding arithmetic below. -/
def decChars (n : Nat) : List Char :=
  ((Nat.digits 10 n).map Nat.digitChar).reverse

/-- Model of the Python format specifier `f"{n:0wd}"`: the decimal
rendering of `n` left-padded with `'0'` to width `w`. -/
def zpad (w : Nat) (n : Nat) : String :=
  String.mk (List.replicate (w - (decChars n).length) '0' ++ decChars n)

/-- Model of `os.path.join(a, b)` in the POSIX, relative-second-argument,
no-trailing-separator case the downloader exercises. -/
def pathJoin (a b : String) : String := a ++ "/" ++ b

/-- `get_section_path` (downloader.py 22-36):
`os.path.join(destination, f"{section_num:02d}_{section_name}")`.
The `ensure_directory_exists` side effect has no bearing on the path
value and is not modelled. -/
def get_section_path (destination : String) (section_num : Nat)
    (section_name : String) : String :=
  pathJoin destination (zpad 2 section_num ++ "_" ++ section_name)

/-- `get_file_path` (downloader.py 39-51):
`os.path.join(section_path, f"{lesson_num:03d}_{filename}.mp4")`. -/
def get_file_path (section_path : String) (lesson_num : Nat)
    (filename : String) : String :=
  pathJoin section_path (zpad 3 lesson_num ++ "_" ++ filename ++ ".mp4")

/-! ### Download engine and orchestrator (downloader.py) -/

/-- Outcome of the streaming GET that `download_file` performs:
the whole body arrives; the status check `raise_for_status` fails; the
`session.get` call itself raises (e.g. `MissingSchema` for an empty
URL); or a transport exception interrupts `iter_content` after some
chunks were already written. -/
inductive Transfer where
  | ok (chunks : List Nat)
  | errStatus
  | errConn
  | errMid (written : List Nat)
deriving DecidableEq

/-- Observable actions of a run: the lesson-page GET issued by
`fetch_html`, the media GET issued by `download_file`, a file
creation/write, and the two log lines that name a lesson's planned file
path (`"Skipping (already downloaded)"` in `file_already_downloaded`,
`"Initiating download"` in `download_file`). -/
inductive Event where
  | pageGet (url : String)
  | mediaGet (url : String)
  | fileWrite (path : String)
  | skipLog (path : String)
  | initLog (path : String)
deriving DecidableEq

/-- Network oracle: the parsed anchor tags of a lesson page (`none`
models a non-200 status) and the outcome of a media-file GET. -/
structure World where
  page : String → Option (List ATag)
  media : String → Transfer

/-- `fetch_html` (scraper.py 12-32) as used on lesson pages: one GET,
then `ConnectionError(f"Failed to load {url}")` unless the status is
200. -/
def fetch_html (w : World) (url : String) :
    List Event × Except String (List ATag) :=
  ([Event.pageGet url],
    match w.page url with
    | some doc => Except.ok doc
    | none => Except.error ("Failed to load " ++ url))

/-- `get_mp4_url` (scraper.py 139-151): fetch the lesson page and scan
it for the media link. -/
def get_mp4_url (w : World) (lesson_url : String) (pfx : String) :
    List Event × Except String String :=
  match fetch_html w lesson_url with
  | (ev, Except.ok doc) => (ev, Except.ok (find_mp4_link doc pfx))
  | (ev, Except.error e) => (ev, Except.error e)

/-- `file_already_downloaded` (downloader.py 54-66): `os.path.exists`
on the model filesystem. -/
def file_already_downloaded (fs : List String) (file_path : String) : Bool :=
  fs.contains file_path

/-- The `try` body of `download_file` (downloader.py 85-98): the
streaming GET, status check, and chunk loop.  `Except.error` carries the
filesystem and events at the point the exception is raised: a mid-stream
failure leaves a partially written file behind, a status/connection
failure creates no file. -/
def download_file_body (w : World) (fs : List String) (url file_path : String) :
    Except (List String × List Event) (List String × List Event) :=
  match w.media url with
  | Transfer.ok _ =>
    Except.ok (file_path :: fs, [Event.mediaGet url, Event.fileWrite file_path])
  | Transfer.errStatus => Except.error (fs, [Event.mediaGet url])
  | Transfer.errConn => Except.error (fs, [Event.mediaGet url])
  | Transfer.errMid _ =>
    Except.error (file_path :: fs, [Event.mediaGet url, Event.fileWrite file_path])

/-- `download_file` (downloader.py 69-101): log the initiation line,
run the body, and catch `requests.exceptions.RequestException` —
on failure it logs and returns normally. -/
def download_file (w : World) (fs : List String) (url file_path : String) :
    List String × List Event :=
  match download_file_body w fs url file_path with
  | Except.ok (fs', ev) => (fs', Event.initLog file_path :: ev)
  | Except.error (fs', ev) => (fs', Event.initLog file_path :: ev)

/-- `download_video` (downloader.py 104-125): compute the file path,
skip (with a log line) when it already exists, otherwise download. -/
def download_video (w : World) (fs : List String) (url section_path : String)
    (lesson_num : Nat) (filename : String) : List String × List Event :=
  let file_path := get_file_path section_path lesson_num filename
  if file_already_downloaded fs file_path then (fs, [Event.skipLog file_path])
  else download_file w fs url file_path

/-- The inner `for lesson_title, lesson_url in videos` loop of
`download_videos` (downloader.py 151-154), threading the filesystem and
the global lesson counter; a `ConnectionError` from `get_mp4_url`
propagates (aborting with the events so far). -/
def processLessons (w : World) (pfx section_path : String) :
    List (String × String) → List String → Nat →
      List Event × Except String (List String × Nat)
  | [], fs, lesson_counter => ([], Except.ok (fs, lesson_counter))
  | (lesson_title, lesson_url) :: rest, fs, lesson_counter =>
    match get_mp4_url w lesson_url pfx with
    | (ev, Except.error e) => (ev, Except.error e)
    | (ev, Except.ok mp4_url) =>
      let r1 := download_video w fs mp4_url section_path lesson_counter lesson_title
      let r2 := processLessons w pfx section_path rest r1.1 (lesson_counter + 1)
      (ev ++ r1.2 ++ r2.1, r2.2)

/-- The outer `for section, videos in sections.items()` loop of
`download_videos` (downloader.py 145-154), threading both counters. -/
def processSections (w : World) (pfx destination : String) :
    SectionMap → List String → Nat → Nat →
      List Event × Except String (List String × Nat)
  | [], fs, lesson_counter, _section_counter => ([], Except.ok (fs, lesson_counter))
  | (sec, videos) :: rest, fs, lesson_counter, section_counter =>
    let section_path := get_section_path destination section_counter sec
    match processLessons w pfx section_path videos fs lesson_counter with
    | (ev, Except.error e) => (ev, Except.error e)
    | (ev, Except.ok (fs', lesson_counter')) =>
      let r2 := processSections w pfx destination rest fs' lesson_counter' (section_counter + 1)
      (ev ++ r2.1, r2.2)

/-- `download_videos` (downloader.py 128-154): both counters start at 1. -/
def download_videos (w : World) (sections : SectionMap)
    (destination pfx : String) (fs : List String) :
    List Event × Except String (List String × Nat) :=
  processSections w pfx destination sections fs 1 1

/-! ### The pure path plan the orchestrator's counters realise -/

/-- File paths the inner loop assigns to one section's videos, given the
global lesson counter on entry. -/
def planLessons (section_path : String) :
    List (String × String) → Nat → List String
  | [], _ => []
  | (lesson_title, _) :: rest, lesson_counter =>
    get_file_path section_path lesson_counter lesson_title ::
      planLessons section_path rest (lesson_counter + 1)

/-- File paths the orchestrator assigns across sections, given both
counters on entry. -/
def planSections (destination : String) :
    SectionMap → Nat → Nat → List String
  | [], _, _ => []
  | (sec, videos) :: rest, lesson_counter, section_counter =>
    planLessons (get_section_path destination section_counter sec) videos lesson_counter ++
      planSections destination rest (lesson_counter + videos.length) (section_counter + 1)

/-- The full path plan of `download_videos`: counters start at 1. -/
def download_videos_paths (sections : SectionMap) (destination : String) :
    List String :=
  planSections destination sections 1 1

/-- Total number of lessons across a section map (document order). -/
def flatLen (sections : SectionMap) : Nat :=
  (sections.map (fun s => s.2.length)).sum

/-- All lessons of a section map in document order. -/
def flatLessons (sections : SectionMap) : List (String × String) :=
  (sections.map (fun s => s.2)).flatten

/-- Recogniser for lesson-page GET events. -/
def isPageGet : Event → Bool
  | Event.pageGet _ => true
  | _ => false

/-- The file path a lesson's processing names in its log line, whether
it was skipped or downloaded. -/
def pathEvent : Event → Option String
  | Event.skipLog p => some p
  | Event.initLog p => some p
  | _ => none

/-! ### Sanitization lemmas -/

theorem dropWhile_head?_false {α : Type} (p : α → Bool) :
    ∀ (l : List α) (c : α), (l.dropWhile p).head? = some c → p c = false := by
  intro l
  induction l with
  | nil => intro c h; simp [List.dropWhile] at h
  | cons a t ih =>
    intro c h
    rw [List.dropWhile_cons] at h
    split at h
    · exact ih c h
    · next hpa =>
      simp only [List.head?_cons, Option.some.injEq] at h
      subst h
      exact Bool.not_eq_true _ ▸ hpa

theorem dropWhile_eq_self_of_head {α : Type} (p : α → Bool) (l : List α)
    (h : ∀ c, l.head? = some c → p c = false) : l.dropWhile p = l := by
  cases l with
  | nil => rfl
  | cons a t => rw [List.dropWhile_cons, h a rfl]; simp

theorem dropTrail_head? (m : List Char) (c : Char)
    (h : (dropTrail m).head? = some c) : m.head? = some c := by
  obtain ⟨t, ht⟩ := List.dropWhile_suffix (l := m.reverse) (p := Char.isWhitespace)
  have hm : dropTrail m ++ t.reverse = m := by
    have h2 := congrArg List.reverse ht
    rw [List.reverse_append, List.reverse_reverse] at h2
    exact h2
  cases hd : dropTrail m with
  | nil => rw [hd] at h; cases h
  | cons d r' =>
    rw [hd] at hm h
    simp only [List.head?_cons, Option.some.injEq] at h
    subst h
    rw [← hm]
    rfl

theorem dropTrail_getLast?_false (m : List Char) (c : Char)
    (h : (dropTrail m).getLast? = some c) : c.isWhitespace = false := by
  unfold dropTrail at h
  rw [List.getLast?_reverse] at h
  exact dropWhile_head?_false _ _ _ h

theorem stripChars_head?_false (l : List Char) (c : Char)
    (h : (stripChars l).head? = some c) : c.isWhitespace = false := by
  have h2 := dropTrail_head? _ _ h
  exact dropWhile_head?_false _ _ _ h2

theorem stripChars_getLast?_false (l : List Char) (c : Char)
    (h : (stripChars l).getLast? = some c) : c.isWhitespace = false :=
  dropTrail_getLast?_false _ _ h

theorem stripChars_eq_self (m : List Char)
    (h1 : ∀ c, m.head? = some c → c.isWhitespace = false)
    (h2 : ∀ c, m.getLast? = some c → c.isWhitespace = false) :
    stripChars m = m := by
  unfold stripChars dropLead dropTrail
  rw [dropWhile_eq_self_of_head _ _ h1]
  rw [dropWhile_eq_self_of_head, List.reverse_reverse]
  intro c hc
  rw [List.head?_reverse] at hc
  exact h2 c hc

/-- The combined effect of the two character replacements. -/
def sanCh (c : Char) : Char :=
  if c = '/' then '_' else if c = ' ' then '_' else c

theorem replaceCh_replaceCh (l : List Char) :
    replaceCh ' ' '_' (replaceCh '/' '_' l) = l.map sanCh := by
  unfold replaceCh
  rw [List.map_map]
  apply List.map_congr_left
  intro c _
  unfold sanCh
  by_cases h1 : c = '/'
  · subst h1; simp
  · by_cases h2 : c = ' ' <;> simp [h1, h2]

theorem sanCh_ws (c : Char) (h : (sanCh c).isWhitespace = true) :
    c.isWhitespace = true := by
  unfold sanCh at h
  split_ifs at h with h1 h2
  · exact absurd h (by decide)
  · exact absurd h (by decide)
  · exact h

theorem sanCh_ne (c : Char) : sanCh c ≠ '/' ∧ sanCh c ≠ ' ' := by
  unfold sanCh
  split_ifs with h1 h2
  · exact ⟨by decide, by decide⟩
  · exact ⟨by decide, by decide⟩
  · exact ⟨h1, h2⟩

theorem sanCh_idem (c : Char) : sanCh (sanCh c) = sanCh c := by
  have h := sanCh_ne c
  show (if sanCh c = '/' then '_' else if sanCh c = ' ' then '_' else sanCh c) = sanCh c
  rw [if_neg h.1, if_neg h.2]

theorem sanitizeText_data (s : String) :
    (sanitizeText s).data = (stripChars s.data).map sanCh := by
  show replaceCh ' ' '_' (replaceCh '/' '_' (stripChars s.data)) = _
  exact replaceCh_replaceCh _

theorem sanitizeText_idem (s : String) :
    sanitizeText (sanitizeText s) = sanitizeText s := by
  apply String.ext
  rw [sanitizeText_data, sanitizeText_data]
  have hstrip :
      stripChars ((stripChars s.data).map sanCh) = (stripChars s.data).map sanCh := by
    apply stripChars_eq_self
    · intro c hc
      rw [List.head?_map] at hc
      cases hh : (stripChars s.data).head? with
      | none => rw [hh] at hc; cases hc
      | some c' =>
        rw [hh] at hc
        simp only [Option.map_some', Option.some.injEq] at hc
        subst hc
        have hne := stripChars_head?_false s.data c' hh
        cases hcw : (sanCh c').isWhitespace with
        | false => rfl
        | true => rw [sanCh_ws c' hcw] at hne; cases hne
    · intro c hc
      rw [List.getLast?_map] at hc
      cases hh : (stripChars s.data).getLast? with
      | none => rw [hh] at hc; cases hc
      | some c' =>
        rw [hh] at hc
        simp only [Option.map_some', Option.some.injEq] at hc
        subst hc
        have hne := stripChars_getLast?_false s.data c' hh
        cases hcw : (sanCh c').isWhitespace with
        | false => rfl
        | true => rw [sanCh_ws c' hcw] at hne; cases hne
  rw [hstrip, List.map_map]
  apply List.map_congr_left
  intro c _
  exact sanCh_idem c

theorem sanitizeText_no_slash_space (s : String) :
    ∀ c ∈ (sanitizeText s).data, c ≠ '/' ∧ c ≠ ' ' := by
  intro c hc
  rw [sanitizeText_data] at hc
  obtain ⟨c', _, rfl⟩ := List.mem_map.mp hc
  exact sanCh_ne c'

/-! ### Section-map lemmas -/

/-- The keys of the section map, in insertion order. -/
def dictKeys (m : SectionMap) : List String := m.map Prod.fst

theorem dictSet_not_mem : ∀ (m : SectionMap) (k : String) (v : List (String × String)),
    k ∉ dictKeys m → dictSet m k v = m ++ [(k, v)] := by
  intro m
  induction m with
  | nil => intro k v _; rfl
  | cons p rest ih =>
    obtain ⟨k', v'⟩ := p
    intro k v h
    simp only [dictKeys, List.map_cons, List.mem_cons, not_or] at h
    simp only [dictSet]
    rw [if_neg (fun he => h.1 he.symm), ih _ _ h.2]
    rfl

theorem dictKeys_cons (k : String) (v : List (String × String)) (m : SectionMap) :
    dictKeys ((k, v) :: m) = k :: dictKeys m := rfl

theorem dictKeys_dictSet : ∀ (m : SectionMap) (k : String) (v : List (String × String)),
    dictKeys (dictSet m k v) =
      if k ∈ dictKeys m then dictKeys m else dictKeys m ++ [k] := by
  intro m
  induction m with
  | nil => intro k v; simp [dictKeys, dictSet]
  | cons p rest ih =>
    obtain ⟨k', v'⟩ := p
    intro k v
    simp only [dictSet]
    by_cases he : k' = k
    · subst he
      rw [if_pos rfl, dictKeys_cons, dictKeys_cons,
        if_pos (List.mem_cons_self _ _)]
    · rw [if_neg he, dictKeys_cons, dictKeys_cons, ih]
      by_cases hm : k ∈ dictKeys rest
      · rw [if_pos hm, if_pos (List.mem_cons_of_mem _ hm)]
      · rw [if_neg hm, if_neg (fun hc => by
          rcases List.mem_cons.mp hc with h1 | h1
          · exact he h1.symm
          · exact hm h1)]
        rfl

theorem dictAppend_keys : ∀ (m : SectionMap) (k : String) (x : String × String),
    dictKeys (dictAppend m k x) = dictKeys m := by
  intro m
  induction m with
  | nil => intro k x; rfl
  | cons p rest ih =>
    obtain ⟨k', v'⟩ := p
    intro k x
    simp only [dictAppend]
    by_cases he : k' = k
    · rw [if_pos he, dictKeys_cons, dictKeys_cons]
    · rw [if_neg he, dictKeys_cons, dictKeys_cons, ih]

theorem dictAppend_last : ∀ (m : SectionMap) (k : String)
    (v : List (String × String)) (x : String × String), k ∉ dictKeys m →
    dictAppend (m ++ [(k, v)]) k x = m ++ [(k, v ++ [x])] := by
  intro m
  induction m with
  | nil => intro k v x _; simp [dictAppend]
  | cons p rest ih =>
    obtain ⟨k', v'⟩ := p
    intro k v x h
    simp only [dictKeys, List.map_cons, List.mem_cons, not_or] at h
    rw [List.cons_append]
    simp only [dictAppend]
    rw [if_neg (fun he => h.1 he.symm)]
    show (k', v') :: dictAppend (rest ++ [(k, v)]) k x = (k', v') :: (rest ++ [(k, v ++ [x])])
    rw [ih _ _ _ h.2]

theorem foldLinks (name : String) :
    ∀ (links : List ATag) (acc : SectionMap) (cur : List (String × String)),
      name ∉ dictKeys acc →
      links.foldl
        (fun a lnk =>
          if lessonLink lnk then dictAppend a name (extract_lesson_details lnk) else a)
        (acc ++ [(name, cur)]) =
      acc ++ [(name, cur ++ (links.filter lessonLink).map extract_lesson_details)] := by
  intro links
  induction links with
  | nil => intro acc cur _; simp
  | cons lnk rest ih =>
    intro acc cur h
    rw [List.foldl_cons]
    by_cases hl : lessonLink lnk
    · rw [if_pos hl, dictAppend_last _ _ _ _ h, ih _ _ h]
      simp [List.filter_cons, hl]
    · rw [if_neg hl, ih _ _ h]
      simp [List.filter_cons, hl]

theorem processDiv_not_mem (acc : SectionMap) (d : DivTag)
    (h : extract_section_name d ∉ dictKeys acc) :
    processDiv acc d = acc ++ [(extract_section_name d, lessonsOf d)] := by
  show (d.links.foldl
      (fun a lnk =>
        if lessonLink lnk
        then dictAppend a (extract_section_name d) (extract_lesson_details lnk)
        else a)
      (dictSet acc (extract_section_name d) [])) = _
  rw [dictSet_not_mem _ _ _ h]
  have h2 := foldLinks (extract_section_name d) d.links acc [] h
  simpa [lessonsOf] using h2

theorem foldDivs_nodup :
    ∀ (ds : List DivTag) (acc : SectionMap),
      (ds.map extract_section_name).Nodup →
      (∀ d ∈ ds, extract_section_name d ∉ dictKeys acc) →
      ds.foldl processDiv acc =
        acc ++ ds.map (fun d => (extract_section_name d, lessonsOf d)) := by
  intro ds
  induction ds with
  | nil => intro acc _ _; simp
  | cons d rest ih =>
    intro acc hnodup hmem
    rw [List.map_cons, List.nodup_cons] at hnodup
    have hn1 := hnodup.1
    have hn2 := hnodup.2
    rw [List.foldl_cons, processDiv_not_mem _ _ (hmem d (List.mem_cons_self _ _))]
    rw [ih _ hn2]
    · simp
    · intro d' hd'
      have hk : dictKeys (acc ++ [(extract_section_name d, lessonsOf d)]) =
          dictKeys acc ++ [extract_section_name d] := by
        simp [dictKeys]
      rw [hk]
      intro hmem'
      rcases List.mem_append.mp hmem' with h1 | h1
      · exact hmem d' (List.mem_cons_of_mem _ hd') h1
      · have he : extract_section_name d' = extract_section_name d := by simpa using h1
        exact hn1 (he ▸ List.mem_map_of_mem extract_section_name hd')

theorem dictKeys_processDiv (acc : SectionMap) (d : DivTag) :
    dictKeys (processDiv acc d) =
      if extract_section_name d ∈ dictKeys acc then dictKeys acc
      else dictKeys acc ++ [extract_section_name d] := by
  unfold processDiv
  have hfold : ∀ (links : List ATag) (m : SectionMap),
      dictKeys (links.foldl
        (fun a lnk =>
          if lessonLink lnk
          then dictAppend a (extract_section_name d) (extract_lesson_details lnk)
          else a) m) = dictKeys m := by
    intro links
    induction links with
    | nil => intro m; rfl
    | cons lnk rest ih =>
      intro m
      rw [List.foldl_cons, ih]
      by_cases hl : lessonLink lnk
      · simp [hl, dictAppend_keys]
      · simp [hl]
  rw [hfold, dictKeys_dictSet]

theorem dictKeys_foldDivs_mono :
    ∀ (ds : List DivTag) (acc : SectionMap) (k : String),
      k ∈ dictKeys acc → k ∈ dictKeys (ds.foldl processDiv acc) := by
  intro ds
  induction ds with
  | nil => intro acc k h; exact h
  | cons d rest ih =>
    intro acc k h
    rw [List.foldl_cons]
    apply ih
    rw [dictKeys_processDiv]
    split_ifs with hm
    · exact h
    · exact List.mem_append_left _ h

theorem dictKeys_mem_foldDivs :
    ∀ (ds : List DivTag) (acc : SectionMap) (d : DivTag), d ∈ ds →
      extract_section_name d ∈ dictKeys (ds.foldl processDiv acc) := by
  intro ds
  induction ds with
  | nil => intro acc d h; cases h
  | cons d' rest ih =>
    intro acc d h
    rw [List.foldl_cons]
    rcases List.mem_cons.mp h with h1 | h1
    · subst h1
      apply dictKeys_foldDivs_mono
      rw [dictKeys_processDiv]
      split_ifs with hm
      · exact hm
      · exact List.mem_append_right _ (List.mem_singleton_self _)
    · exact ih _ _ h1

theorem dictKeys_foldDivs_subset :
    ∀ (ds : List DivTag) (acc : SectionMap) (k : String),
      k ∈ dictKeys (ds.foldl processDiv acc) →
      k ∈ dictKeys acc ∨ k ∈ ds.map extract_section_name := by
  intro ds
  induction ds with
  | nil => intro acc k h; exact Or.inl h
  | cons d rest ih =>
    intro acc k h
    rw [List.foldl_cons] at h
    rcases ih _ _ h with h1 | h1
    · rw [dictKeys_processDiv] at h1
      split_ifs at h1 with hm
      · exact Or.inl h1
      · rcases List.mem_append.mp h1 with h2 | h2
        · exact Or.inl h2
        · exact Or.inr (by simp [List.mem_singleton.mp h2])
    · exact Or.inr (List.mem_cons_of_mem _ h1)

theorem dictKeys_foldDivs_nodup :
    ∀ (ds : List DivTag) (acc : SectionMap),
      (dictKeys acc).Nodup → (dictKeys (ds.foldl processDiv acc)).Nodup := by
  intro ds
  induction ds with
  | nil => intro acc h; exact h
  | cons d rest ih =>
    intro acc h
    rw [List.foldl_cons]
    apply ih
    rw [dictKeys_processDiv]
    split_ifs with hm
    · exact h
    · simp [List.nodup_append, h, hm]

theorem foldDivs_ne_nil (ds : List DivTag) (acc : SectionMap) (hds : ds ≠ []) :
    ds.foldl processDiv acc ≠ [] := by
  obtain ⟨d, rest, rfl⟩ : ∃ d rest, ds = d :: rest := by
    cases ds with
    | nil => exact absurd rfl hds
    | cons d rest => exact ⟨d, rest, rfl⟩
  intro hc
  have := dictKeys_mem_foldDivs (d :: rest) acc d (List.mem_cons_self _ _)
  rw [hc] at this
  cases this

theorem extract_closed (doc : List DivTag) (pfx : String)
    (hnodup : (((sectionDivs doc pfx).drop 1).map extract_section_name).Nodup)
    (hne : (sectionDivs doc pfx).drop 1 ≠ []) :
    extract_sections_and_lessons doc pfx =
      Except.ok (((sectionDivs doc pfx).drop 1).map
        (fun d => (extract_section_name d, lessonsOf d))) := by
  unfold extract_sections_and_lessons
  rw [foldDivs_nodup _ [] hnodup (by intro d _; simp [dictKeys])]
  simp only [List.nil_append]
  rw [if_neg]
  intro hEmp
  apply hne
  have h3 : ((sectionDivs doc pfx).drop 1).map
      (fun d => (extract_section_name d, lessonsOf d)) = [] :=
    List.isEmpty_iff.mp hEmp
  have h4 := congrArg List.length h3
  simp only [List.length_map, List.length_nil] at h4
  exact List.length_eq_zero.mp h4

/-! ### Concrete course documents used as witnesses -/

/-- A course page whose two retained containers share the sanitized
section name `"A"`: banner div plus two sections both headed `A`. -/
def exDoc : List DivTag :=
  [⟨some "c0", some "Banner", []⟩,
   ⟨some "c1", some "A", [⟨"L1", "/lessons/x"⟩]⟩,
   ⟨some "c2", some "A", [⟨"L2", "/lessons/y"⟩]⟩]

/-- A course page with a banner and two distinctly named sections, the
second one without any lesson link. -/
def exDoc2 : List DivTag :=
  [⟨some "c0", some "Banner", []⟩,
   ⟨some "c1", some "S1", [⟨"L1", "/lessons/x"⟩]⟩,
   ⟨some "c2", some "S2", []⟩]

/-! ### Claim C1 -/

/-- C1 counterexample: a document with S = 3 qualifying containers for
which `extract_sections_and_lessons` returns a single-section map, not
S − 1 = 2 sections — the two retained containers share a sanitized name,
so the later one replaces the earlier.  This refutes the claim that the
function returns exactly S − 1 sections for every document. -/
theorem claim_C1_counterexample :
    (sectionDivs exDoc "c").length = 3 ∧
    extract_sections_and_lessons exDoc "c" =
      Except.ok [("A", [("L2", "https://courses.calhoun.io/lessons/y")])] ∧
    ([("A", [("L2", "https://courses.calhoun.io/lessons/y")])] : SectionMap).length ≠
      (sectionDivs exDoc "c").length - 1 :=
  ⟨by decide, by rfl, by decide⟩

/-- C1 (amended): for every course document with S ≥ 2 qualifying
containers whose retained (non-first) containers have pairwise-distinct
sanitized section names, `extract_sections_and_lessons` returns exactly
S − 1 sections — the first container is discarded unconditionally — and
each retained section carries its (sanitized title, absolute URL) pairs
in document order. -/
theorem claim_C1 (doc : List DivTag) (pfx : String)
    (hS : 2 ≤ (sectionDivs doc pfx).length)
    (hnodup : (((sectionDivs doc pfx).drop 1).map extract_section_name).Nodup) :
    extract_sections_and_lessons doc pfx =
      Except.ok (((sectionDivs doc pfx).drop 1).map
        (fun d => (extract_section_name d, lessonsOf d))) ∧
    (((sectionDivs doc pfx).drop 1).map
        (fun d => (extract_section_name d, lessonsOf d))).length =
      (sectionDivs doc pfx).length - 1 := by
  have hne : (sectionDivs doc pfx).drop 1 ≠ [] := by
    intro h
    have h2 := congrArg List.length h
    simp only [List.length_drop, List.length_nil] at h2
    omega
  refine ⟨extract_closed doc pfx hnodup hne, ?_⟩
  simp [List.length_map, List.length_drop]

/-- C1 witness: the amended theorem applied to a concrete document with
three qualifying containers and distinct retained names. -/
theorem claim_C1_witness :
    extract_sections_and_lessons exDoc2 "c" =
      Except.ok (((sectionDivs exDoc2 "c").drop 1).map
        (fun d => (extract_section_name d, lessonsOf d))) ∧
    (((sectionDivs exDoc2 "c").drop 1).map
        (fun d => (extract_section_name d, lessonsOf d))).length =
      (sectionDivs exDoc2 "c").length - 1 :=
  claim_C1 exDoc2 "c" (by decide) (by decide)

/-! ### Claim C5 -/

/-- C5: `extract_sections_and_lessons` fails with the no-content error
exactly when no containers beyond the first are found; whenever at least
one container is retained it succeeds — no matter how many lessons were
found — and every retained container (including one with zero matching
lessons) appears as a key of the returned map; under pairwise-distinct
sanitized names a retained container with zero matching lessons is bound
to the empty sequence. -/
theorem claim_C5 (doc : List DivTag) (pfx : String) :
    (extract_sections_and_lessons doc pfx =
        Except.error "No lessons available for download." ↔
      (sectionDivs doc pfx).drop 1 = []) ∧
    ((sectionDivs doc pfx).drop 1 ≠ [] →
      ∃ m, extract_sections_and_lessons doc pfx = Except.ok m ∧
        ∀ d ∈ (sectionDivs doc pfx).drop 1,
          extract_section_name d ∈ dictKeys m) ∧
    (∀ d ∈ (sectionDivs doc pfx).drop 1,
      (((sectionDivs doc pfx).drop 1).map extract_section_name).Nodup →
      d.links.filter lessonLink = [] →
      ∃ m, extract_sections_and_lessons doc pfx = Except.ok m ∧
        (extract_section_name d, ([] : List (String × String))) ∈ m) := by
  refine ⟨⟨?_, ?_⟩, ?_, ?_⟩
  · intro herr
    by_contra hne
    have hnn := foldDivs_ne_nil ((sectionDivs doc pfx).drop 1) [] hne
    have h2 : extract_sections_and_lessons doc pfx =
        Except.ok (((sectionDivs doc pfx).drop 1).foldl processDiv []) := by
      show (if (((sectionDivs doc pfx).drop 1).foldl processDiv []).isEmpty
          then Except.error "No lessons available for download."
          else Except.ok (((sectionDivs doc pfx).drop 1).foldl processDiv [])) = _
      rw [if_neg (fun hEmp => hnn (List.isEmpty_iff.mp hEmp))]
    rw [herr] at h2
    exact Except.noConfusion h2
  · intro hnil
    show (if (((sectionDivs doc pfx).drop 1).foldl processDiv []).isEmpty
        then Except.error "No lessons available for download."
        else Except.ok (((sectionDivs doc pfx).drop 1).foldl processDiv [])) = _
    rw [hnil]
    rfl
  · intro hne
    refine ⟨((sectionDivs doc pfx).drop 1).foldl processDiv [], ?_, ?_⟩
    · show (if (((sectionDivs doc pfx).drop 1).foldl processDiv []).isEmpty
          then Except.error "No lessons available for download."
          else Except.ok (((sectionDivs doc pfx).drop 1).foldl processDiv [])) = _
      rw [if_neg (fun hEmp =>
        foldDivs_ne_nil ((sectionDivs doc pfx).drop 1) [] hne (List.isEmpty_iff.mp hEmp))]
    · intro d hd
      exact dictKeys_mem_foldDivs _ [] d hd
  · intro d hd hnodup hfil
    have hne : (sectionDivs doc pfx).drop 1 ≠ [] := List.ne_nil_of_mem hd
    refine ⟨((sectionDivs doc pfx).drop 1).map
      (fun d => (extract_section_name d, lessonsOf d)), extract_closed doc pfx hnodup hne, ?_⟩
    have hl : lessonsOf d = [] := by
      unfold lessonsOf
      rw [hfil]
      rfl
    have h5 := List.mem_map_of_mem (fun d => (extract_section_name d, lessonsOf d)) hd
    simpa [hl] using h5

/-- C5 witness: the theorem applied to a concrete document whose single
retained section has no matching lesson link. -/
theorem claim_C5_witness :
    ∃ m, extract_sections_and_lessons
        [⟨some "c0", none, []⟩, ⟨some "c1", some "Empty Sec", [⟨"x", "/other"⟩]⟩] "c" =
      Except.ok m ∧
      (extract_section_name ⟨some "c1", some "Empty Sec", [⟨"x", "/other"⟩]⟩,
        ([] : List (String × String))) ∈ m :=
  (claim_C5 [⟨some "c0", none, []⟩, ⟨some "c1", some "Empty Sec", [⟨"x", "/other"⟩]⟩] "c").2.2
    ⟨some "c1", some "Empty Sec", [⟨"x", "/other"⟩]⟩ (by decide) (by decide) (by decide)

/-! ### Claim C10 -/

/-- C10: the section map is keyed by sanitized name with unconditional
reset, so when two retained containers share a sanitized name the later
container's entry replaces the earlier one's lesson list (the earlier
lessons are lost and the map has one entry for the two containers); and
in general the map has as many entries as retained containers only when
the sanitized names are pairwise distinct. -/
theorem claim_C10 :
    (∀ (d0 d1 d2 : DivTag) (pfx : String),
      isSectionDiv pfx d0 = true → isSectionDiv pfx d1 = true →
      isSectionDiv pfx d2 = true →
      extract_section_name d1 = extract_section_name d2 →
      extract_sections_and_lessons [d0, d1, d2] pfx =
        Except.ok [(extract_section_name d2, lessonsOf d2)]) ∧
    (∀ (doc : List DivTag) (pfx : String) (m : SectionMap),
      extract_sections_and_lessons doc pfx = Except.ok m →
      m.length = ((sectionDivs doc pfx).drop 1).length →
      (((sectionDivs doc pfx).drop 1).map extract_section_name).Nodup) := by
  constructor
  · intro d0 d1 d2 pfx h0 h1 h2 he
    have hsd : sectionDivs [d0, d1, d2] pfx = [d0, d1, d2] := by
      simp [sectionDivs, List.filter, h0, h1, h2]
    have hp1 : processDiv [] d1 = [(extract_section_name d1, lessonsOf d1)] := by
      have := processDiv_not_mem [] d1 (by simp [dictKeys])
      simpa using this
    have hp2 : processDiv [(extract_section_name d1, lessonsOf d1)] d2 =
        [(extract_section_name d2, lessonsOf d2)] := by
      show (d2.links.foldl
          (fun a lnk =>
            if lessonLink lnk
            then dictAppend a (extract_section_name d2) (extract_lesson_details lnk)
            else a)
          (dictSet [(extract_section_name d1, lessonsOf d1)]
            (extract_section_name d2) [])) = _
      have hset : dictSet [(extract_section_name d1, lessonsOf d1)]
          (extract_section_name d2) [] = [(extract_section_name d2, [])] := by
        simp [dictSet, he]
      rw [hset]
      have hf := foldLinks (extract_section_name d2) d2.links [] [] (by simp [dictKeys])
      simpa [lessonsOf] using hf
    unfold extract_sections_and_lessons
    rw [hsd]
    show (if (processDiv (processDiv [] d1) d2).isEmpty
        then Except.error "No lessons available for download."
        else Except.ok (processDiv (processDiv [] d1) d2)) = _
    rw [hp1, hp2]
    rfl
  · intro doc pfx m hok hlen
    have hm : ((sectionDivs doc pfx).drop 1).foldl processDiv [] = m := by
      have hok' : (if (((sectionDivs doc pfx).drop 1).foldl processDiv []).isEmpty
          then (Except.error "No lessons available for download." : Except String SectionMap)
          else Except.ok (((sectionDivs doc pfx).drop 1).foldl processDiv [])) =
            Except.ok m := hok
      by_cases hc : (((sectionDivs doc pfx).drop 1).foldl processDiv []).isEmpty
      · rw [if_pos hc] at hok'
        exact Except.noConfusion hok'
      · rw [if_neg hc] at hok'
        exact Except.ok.inj hok'
    have hkn : (dictKeys m).Nodup := by
      rw [← hm]
      exact dictKeys_foldDivs_nodup _ [] (by simp [dictKeys])
    have hsub : ∀ k ∈ dictKeys m,
        k ∈ ((sectionDivs doc pfx).drop 1).map extract_section_name := by
      intro k hk
      rw [← hm] at hk
      rcases dictKeys_foldDivs_subset _ [] k hk with h1 | h1
      · simp [dictKeys] at h1
      · exact h1
    have hlen2 : (dictKeys m).length =
        (((sectionDivs doc pfx).drop 1).map extract_section_name).length := by
      simp only [dictKeys, List.length_map]
      rw [hlen]
    by_contra hnd
    have hsl := List.dedup_sublist
      (((sectionDivs doc pfx).drop 1).map extract_section_name)
    have hdlt : (((sectionDivs doc pfx).drop 1).map extract_section_name).dedup.length <
        (((sectionDivs doc pfx).drop 1).map extract_section_name).length := by
      rcases lt_or_eq_of_le hsl.length_le with h | h
      · exact h
      · exact absurd (hsl.eq_of_length h ▸
          List.nodup_dedup (((sectionDivs doc pfx).drop 1).map extract_section_name)) hnd
    have hsp := (hkn.subperm (fun k hk => List.mem_dedup.mpr (hsub k hk))).length_le
    omega

/-- C10 witness: the replacement behaviour at a concrete document whose
two retained containers are both named `A`. -/
theorem claim_C10_witness :
    extract_sections_and_lessons exDoc "c" =
      Except.ok [(extract_section_name ⟨some "c2", some "A", [⟨"L2", "/lessons/y"⟩]⟩,
        lessonsOf ⟨some "c2", some "A", [⟨"L2", "/lessons/y"⟩]⟩)] :=
  claim_C10.1 ⟨some "c0", some "Banner", []⟩ ⟨some "c1", some "A", [⟨"L1", "/lessons/x"⟩]⟩
    ⟨some "c2", some "A", [⟨"L2", "/lessons/y"⟩]⟩ "c"
    (by decide) (by decide) (by decide) (by decide)

/-! ### Claim C7 -/

/-- C7: on a lesson page, `find_mp4_link` returns the absolute URL (base
origin prepended to the relative target) of the first link in document
order whose target contains the fragment `files/<media prefix>`, and the
empty string when no link's target contains that fragment. -/
theorem claim_C7 :
    (∀ (pre post : List ATag) (a : ATag) (pfx : String),
      (∀ b ∈ pre, hasSub ("files/" ++ pfx).data b.href.data = false) →
      hasSub ("files/" ++ pfx).data a.href.data = true →
      find_mp4_link (pre ++ a :: post) pfx = BASE_URL ++ a.href) ∧
    (∀ (links : List ATag) (pfx : String),
      (∀ b ∈ links, hasSub ("files/" ++ pfx).data b.href.data = false) →
      find_mp4_link links pfx = "") := by
  constructor
  · intro pre
    induction pre with
    | nil =>
      intro post a pfx _ hmatch
      rw [List.nil_append]
      show (if hasSub ("files/" ++ pfx).data a.href.data
          then BASE_URL ++ a.href else find_mp4_link post pfx) = BASE_URL ++ a.href
      rw [hmatch]
      simp
    | cons b rest ih =>
      intro post a pfx hpre hmatch
      have hb := hpre b (List.mem_cons_self _ _)
      rw [List.cons_append]
      show (if hasSub ("files/" ++ pfx).data b.href.data
          then BASE_URL ++ b.href
          else find_mp4_link (rest ++ a :: post) pfx) = BASE_URL ++ a.href
      rw [hb]
      simp only [Bool.false_eq_true, if_false]
      exact ih post a pfx (fun b' hb' => hpre b' (List.mem_cons_of_mem _ hb')) hmatch
  · intro links
    induction links with
    | nil => intro pfx _; rfl
    | cons b rest ih =>
      intro pfx h
      have hb := h b (List.mem_cons_self _ _)
      show (if hasSub ("files/" ++ pfx).data b.href.data
          then BASE_URL ++ b.href else find_mp4_link rest pfx) = ""
      rw [hb]
      simp only [Bool.false_eq_true, if_false]
      exact ih pfx (fun b' hb' => h b' (List.mem_cons_of_mem _ hb'))

/-- C7 witness: the first-match rule on a page with one non-matching and
two matching links. -/
theorem claim_C7_witness :
    find_mp4_link
      [⟨"a", "/files/zz"⟩, ⟨"b", "/files/fil_x1"⟩, ⟨"c", "/files/fil_x2"⟩]
      "fil_" = BASE_URL ++ "/files/fil_x1" :=
  claim_C7.1 [⟨"a", "/files/zz"⟩] [⟨"c", "/files/fil_x2"⟩] ⟨"b", "/files/fil_x1"⟩
    "fil_" (by decide) (by decide)

/-! ### Claim C8 -/

/-- C8 counterexample: the sanitization only replaces `'/'` and the
space character, so a tab — a whitespace character — inside the text
survives sanitization, refuting the claim that a returned name never
contains a whitespace character. -/
theorem claim_C8_counterexample :
    sanitizeText "a\tb" = "a\tb" ∧
    '\t' ∈ (sanitizeText "a\tb").data ∧ '\t'.isWhitespace = true :=
  ⟨by decide, by decide, by decide⟩

/-- C8 (amended): sanitization is idempotent — re-sanitizing a sanitized
string returns it unchanged — and a sanitized name never contains `'/'`
or the space character `' '` (other whitespace characters, such as tab,
may remain). -/
theorem claim_C8 (s : String) :
    sanitizeText (sanitizeText s) = sanitizeText s ∧
    ∀ c ∈ (sanitizeText s).data, c ≠ '/' ∧ c ≠ ' ' :=
  ⟨sanitizeText_idem s, sanitizeText_no_slash_space s⟩

/-- C8 witness: the amended theorem evaluated at a concrete string. -/
theorem claim_C8_witness :
    sanitizeText (sanitizeText "a/b c") = sanitizeText "a/b c" ∧
    ('a' ≠ '/' ∧ 'a' ≠ ' ') :=
  ⟨(claim_C8 "a/b c").1, (claim_C8 "a/b c").2 'a' (by decide)⟩

/-! ### Decimal rendering lemmas (for path injectivity) -/

theorem digitChar_inj_lt : ∀ d < 10, ∀ e < 10,
    Nat.digitChar d = Nat.digitChar e → d = e := by decide

theorem digitChar_isDigit : ∀ d < 10, (Nat.digitChar d).isDigit = true := by decide

theorem digitChar_ne_zero : ∀ d < 10, d ≠ 0 → Nat.digitChar d ≠ '0' := by decide

theorem map_digitChar_inj : ∀ (l1 l2 : List Nat),
    (∀ d ∈ l1, d < 10) → (∀ d ∈ l2, d < 10) →
    l1.map Nat.digitChar = l2.map Nat.digitChar → l1 = l2 := by
  intro l1
  induction l1 with
  | nil =>
    intro l2 _ _ h
    cases l2 with
    | nil => rfl
    | cons e t2 => simp at h
  | cons d t ih =>
    intro l2 h1 h2 h
    cases l2 with
    | nil => simp at h
    | cons e t2 =>
      simp only [List.map_cons, List.cons.injEq] at h
      have hde := digitChar_inj_lt d (h1 d (List.mem_cons_self _ _))
        e (h2 e (List.mem_cons_self _ _)) h.1
      subst hde
      rw [ih t2 (fun x hx => h1 x (List.mem_cons_of_mem _ hx))
        (fun x hx => h2 x (List.mem_cons_of_mem _ hx)) h.2]

theorem decChars_inj (a b : Nat) (h : decChars a = decChars b) : a = b := by
  unfold decChars at h
  have h2 := List.reverse_injective h
  have h3 : Nat.digits 10 a = Nat.digits 10 b :=
    map_digitChar_inj _ _
      (fun d hd => Nat.digits_lt_base (by norm_num) hd)
      (fun d hd => Nat.digits_lt_base (by norm_num) hd) h2
  have h4 := congrArg (Nat.ofDigits 10) h3
  rwa [Nat.ofDigits_digits, Nat.ofDigits_digits] at h4

theorem decChars_all_digits (n : Nat) : ∀ c ∈ decChars n, c.isDigit = true := by
  intro c hc
  unfold decChars at hc
  rw [List.mem_reverse] at hc
  obtain ⟨d, hd, rfl⟩ := List.mem_map.mp hc
  exact digitChar_isDigit d (Nat.digits_lt_base (by norm_num) hd)

theorem decChars_head_ne_zero (n : Nat) (hn : n ≠ 0) (c : Char)
    (h : (decChars n).head? = some c) : c ≠ '0' := by
  unfold decChars at h
  rw [List.head?_reverse, List.getLast?_map] at h
  have hnil : Nat.digits 10 n ≠ [] := Nat.digits_ne_nil_iff_ne_zero.mpr hn
  rw [List.getLast?_eq_getLast _ hnil] at h
  simp only [Option.map_some', Option.some.injEq] at h
  subst h
  exact digitChar_ne_zero _
    (Nat.digits_lt_base (by norm_num) (List.getLast_mem hnil))
    (Nat.getLast_digit_ne_zero 10 hn)

theorem dropZeros_replicate (k : Nat) (l : List Char) :
    (List.replicate k '0' ++ l).dropWhile (fun c => c == '0') =
      l.dropWhile (fun c => c == '0') := by
  induction k with
  | zero => rfl
  | succ k ih =>
    rw [List.replicate_succ, List.cons_append, List.dropWhile_cons]
    simp only [beq_self_eq_true, if_true]
    exact ih

theorem dropZeros_decChars (n : Nat) :
    (decChars n).dropWhile (fun c => c == '0') = decChars n := by
  apply dropWhile_eq_self_of_head
  intro c hc
  by_cases hn : n = 0
  · subst hn
    simp [decChars, Nat.digits_zero] at hc
  · have hne := decChars_head_ne_zero n hn c hc
    simp [hne]

theorem zpad_inj (w a b : Nat) (h : zpad w a = zpad w b) : a = b := by
  have hd : List.replicate (w - (decChars a).length) '0' ++ decChars a =
      List.replicate (w - (decChars b).length) '0' ++ decChars b :=
    congrArg String.data h
  have h2 := congrArg (List.dropWhile (fun c => c == '0')) hd
  rw [dropZeros_replicate, dropZeros_replicate,
    dropZeros_decChars, dropZeros_decChars] at h2
  exact decChars_inj a b h2

theorem zpad_digits (w n : Nat) : ∀ c ∈ (zpad w n).data, c.isDigit = true := by
  intro c hc
  rcases List.mem_append.mp hc with h1 | h1
  · rw [List.eq_of_mem_replicate h1]
    decide
  · exact decChars_all_digits n c h1

theorem digit_split : ∀ (A B R S : List Char),
    (∀ c ∈ A, c.isDigit = true) → (∀ c ∈ B, c.isDigit = true) →
    A ++ '_' :: R = B ++ '_' :: S → A = B ∧ R = S := by
  intro A
  induction A with
  | nil =>
    intro B R S _ hB h
    cases B with
    | nil =>
      rw [List.nil_append, List.nil_append] at h
      injection h with _ h2
      exact ⟨rfl, h2⟩
    | cons b B' =>
      rw [List.nil_append, List.cons_append] at h
      injection h with h1 _
      have hb := hB b (List.mem_cons_self _ _)
      rw [← h1] at hb
      exact absurd hb (by decide)
  | cons a A' ih =>
    intro B R S hA hB h
    cases B with
    | nil =>
      rw [List.nil_append, List.cons_append] at h
      injection h with h1 _
      have ha := hA a (List.mem_cons_self _ _)
      rw [h1] at ha
      exact absurd ha (by decide)
    | cons b B' =>
      rw [List.cons_append, List.cons_append] at h
      injection h with h1 h2
      subst h1
      obtain ⟨hAB, hRS⟩ := ih B' R S
        (fun c hc => hA c (List.mem_cons_of_mem _ hc))
        (fun c hc => hB c (List.mem_cons_of_mem _ hc)) h2
      exact ⟨by rw [hAB], hRS⟩

theorem path_data (destination : String) (si li : Nat) (name title : String) :
    (get_file_path (get_section_path destination si name) li title).data =
      destination.data ++ '/' :: ((zpad 2 si).data ++ '_' ::
        (name.data ++ '/' :: ((zpad 3 li).data ++ '_' ::
          (title.data ++ ".mp4".data)))) := by
  have hslash : "/".data = ['/'] := rfl
  have hus : "_".data = ['_'] := rfl
  simp [get_file_path, get_section_path, pathJoin, String.data_append,
    hslash, hus, List.append_assoc]

theorem path_inj (destination name title : String) (si li sj lj : Nat)
    (h : get_file_path (get_section_path destination si name) li title =
         get_file_path (get_section_path destination sj name) lj title) :
    si = sj ∧ li = lj := by
  have hd := congrArg String.data h
  rw [path_data, path_data] at hd
  have h1 := List.append_cancel_left hd
  injection h1 with _ h2
  obtain ⟨hA, hrest⟩ := digit_split _ _ _ _ (zpad_digits 2 si) (zpad_digits 2 sj) h2
  have h3 := List.append_cancel_left hrest
  injection h3 with _ h4
  obtain ⟨hB, _⟩ := digit_split _ _ _ _ (zpad_digits 3 li) (zpad_digits 3 lj) h4
  exact ⟨zpad_inj 2 si sj (String.ext hA), zpad_inj 3 li lj (String.ext hB)⟩

/-! ### Claim C9 -/

/-- C9: path planning is deterministic (the planning functions are pure:
identical inputs reproduce identical paths) and injective — for a fixed
base destination, section name and lesson title, distinct
(sectionIndex, lessonIndex) pairs produce distinct full file paths via
`get_section_path` composed with `get_file_path`. -/
theorem claim_C9 (destination section_name filename : String)
    (si li sj lj : Nat) (hne : (si, li) ≠ (sj, lj)) :
    get_file_path (get_section_path destination si section_name) li filename ≠
      get_file_path (get_section_path destination sj section_name) lj filename ∧
    (get_section_path destination si section_name =
        get_section_path destination si section_name ∧
      get_file_path (get_section_path destination si section_name) li filename =
        get_file_path (get_section_path destination si section_name) li filename) := by
  refine ⟨?_, rfl, rfl⟩
  intro h
  obtain ⟨h1, h2⟩ := path_inj destination section_name filename si li sj lj h
  exact hne (by rw [h1, h2])

/-- C9 witness: lesson indices 1 and 2 in the same section give distinct
paths. -/
theorem claim_C9_witness :
    get_file_path (get_section_path "d" 1 "s") 1 "t" ≠
      get_file_path (get_section_path "d" 1 "s") 2 "t" ∧
    (get_section_path "d" 1 "s" = get_section_path "d" 1 "s" ∧
      get_file_path (get_section_path "d" 1 "s") 1 "t" =
        get_file_path (get_section_path "d" 1 "s") 1 "t") :=
  claim_C9 "d" "s" "t" 1 1 1 2 (by decide)

/-! ### Orchestrator trace lemmas -/

theorem flatLessons_cons (sec : String) (videos : List (String × String))
    (rest : SectionMap) :
    flatLessons ((sec, videos) :: rest) = videos ++ flatLessons rest := by
  simp [flatLessons]

theorem flatLen_cons (sec : String) (videos : List (String × String))
    (rest : SectionMap) :
    flatLen ((sec, videos) :: rest) = videos.length + flatLen rest := by
  simp [flatLen]

theorem download_video_skip (w : World) (fs : List String) (url sp : String)
    (lc : Nat) (t : String)
    (h : file_already_downloaded fs (get_file_path sp lc t) = true) :
    download_video w fs url sp lc t =
      (fs, [Event.skipLog (get_file_path sp lc t)]) := by
  show (if file_already_downloaded fs (get_file_path sp lc t)
      then (fs, [Event.skipLog (get_file_path sp lc t)])
      else download_file w fs url (get_file_path sp lc t)) = _
  rw [h]
  simp

theorem download_video_not_skip (w : World) (fs : List String) (url sp : String)
    (lc : Nat) (t : String)
    (h : ¬ file_already_downloaded fs (get_file_path sp lc t) = true) :
    download_video w fs url sp lc t = download_file w fs url (get_file_path sp lc t) := by
  show (if file_already_downloaded fs (get_file_path sp lc t)
      then (fs, [Event.skipLog (get_file_path sp lc t)])
      else download_file w fs url (get_file_path sp lc t)) = _
  rw [if_neg h]

theorem download_video_trace (w : World) (fs : List String) (url sp : String)
    (lc : Nat) (t : String) :
    List.countP isPageGet (download_video w fs url sp lc t).2 = 0 ∧
    List.filterMap pathEvent (download_video w fs url sp lc t).2 =
      [get_file_path sp lc t] := by
  by_cases h : file_already_downloaded fs (get_file_path sp lc t) = true
  · rw [download_video_skip w fs url sp lc t h]
    exact ⟨rfl, rfl⟩
  · rw [download_video_not_skip w fs url sp lc t h]
    unfold download_file download_file_body
    cases hm : w.media url <;> exact ⟨rfl, rfl⟩

theorem processLessons_cons_ok (w : World) (pfx sp title url : String)
    (rest : List (String × String)) (fs : List String) (lc : Nat)
    (doc : List ATag) (hdoc : w.page url = some doc) :
    processLessons w pfx sp ((title, url) :: rest) fs lc =
      ([Event.pageGet url] ++
        (download_video w fs (find_mp4_link doc pfx) sp lc title).2 ++
        (processLessons w pfx sp rest
          (download_video w fs (find_mp4_link doc pfx) sp lc title).1 (lc + 1)).1,
       (processLessons w pfx sp rest
          (download_video w fs (find_mp4_link doc pfx) sp lc title).1 (lc + 1)).2) := by
  have hget : get_mp4_url w url pfx =
      ([Event.pageGet url], Except.ok (find_mp4_link doc pfx)) := by
    unfold get_mp4_url fetch_html
    rw [hdoc]
  show (match get_mp4_url w url pfx with
    | (ev, Except.error e) => (ev, Except.error e)
    | (ev, Except.ok mp4_url) =>
      (ev ++ (download_video w fs mp4_url sp lc title).2 ++
        (processLessons w pfx sp rest
          (download_video w fs mp4_url sp lc title).1 (lc + 1)).1,
       (processLessons w pfx sp rest
          (download_video w fs mp4_url sp lc title).1 (lc + 1)).2)) = _
  rw [hget]

theorem processLessons_cons_err (w : World) (pfx sp title url : String)
    (rest : List (String × String)) (fs : List String) (lc : Nat)
    (hfail : w.page url = none) :
    processLessons w pfx sp ((title, url) :: rest) fs lc =
      ([Event.pageGet url], Except.error ("Failed to load " ++ url)) := by
  have hget : get_mp4_url w url pfx =
      ([Event.pageGet url], Except.error ("Failed to load " ++ url)) := by
    unfold get_mp4_url fetch_html
    rw [hfail]
  show (match get_mp4_url w url pfx with
    | (ev, Except.error e) => (ev, Except.error e)
    | (ev, Except.ok mp4_url) =>
      (ev ++ (download_video w fs mp4_url sp lc title).2 ++
        (processLessons w pfx sp rest
          (download_video w fs mp4_url sp lc title).1 (lc + 1)).1,
       (processLessons w pfx sp rest
          (download_video w fs mp4_url sp lc title).1 (lc + 1)).2)) = _
  rw [hget]

theorem processLessons_ok (w : World) (pfx sp : String) :
    ∀ (videos : List (String × String)) (fs : List String) (lc : Nat),
      (∀ l ∈ videos, (w.page l.2).isSome = true) →
      ∃ ev fs',
        processLessons w pfx sp videos fs lc =
          (ev, Except.ok (fs', lc + videos.length)) ∧
        List.countP isPageGet ev = videos.length ∧
        List.filterMap pathEvent ev = planLessons sp videos lc := by
  intro videos
  induction videos with
  | nil =>
    intro fs lc _
    exact ⟨[], fs, by simp [processLessons, planLessons], rfl, rfl⟩
  | cons v rest ih =>
    obtain ⟨title, url⟩ := v
    intro fs lc hp
    obtain ⟨doc, hdoc⟩ :=
      Option.isSome_iff_exists.mp (hp (title, url) (List.mem_cons_self _ _))
    obtain ⟨ev3, fs'', hrec, hcount, hpath⟩ :=
      ih (download_video w fs (find_mp4_link doc pfx) sp lc title).1 (lc + 1)
        (fun l hl => hp l (List.mem_cons_of_mem _ hl))
    obtain ⟨hc0, hp0⟩ := download_video_trace w fs (find_mp4_link doc pfx) sp lc title
    refine ⟨[Event.pageGet url] ++
        (download_video w fs (find_mp4_link doc pfx) sp lc title).2 ++ ev3,
      fs'', ?_, ?_, ?_⟩
    · rw [processLessons_cons_ok w pfx sp title url rest fs lc doc hdoc, hrec,
        List.append_assoc]
      have harith : lc + 1 + rest.length = lc + (rest.length + 1) := by omega
      rw [harith]
      simp
    · rw [List.countP_append, List.countP_append, hc0, hcount]
      have h1 : List.countP isPageGet [Event.pageGet url] = 1 := rfl
      rw [h1]
      simp
      omega
    · rw [List.filterMap_append, List.filterMap_append, hp0, hpath]
      have h1 : List.filterMap pathEvent [Event.pageGet url] = [] := rfl
      rw [h1]
      simp [planLessons]

theorem processLessons_err (w : World) (pfx sp : String) :
    ∀ (pre : List (String × String)) (t u : String)
      (post : List (String × String)) (fs : List String) (lc : Nat),
      (∀ l ∈ pre, (w.page l.2).isSome = true) →
      w.page u = none →
      ∃ ev,
        processLessons w pfx sp (pre ++ (t, u) :: post) fs lc =
          (ev, Except.error ("Failed to load " ++ u)) ∧
        List.countP isPageGet ev = pre.length + 1 := by
  intro pre
  induction pre with
  | nil =>
    intro t u post fs lc _ hfail
    refine ⟨[Event.pageGet u], ?_, rfl⟩
    rw [List.nil_append]
    exact processLessons_cons_err w pfx sp t u post fs lc hfail
  | cons v pre' ih =>
    obtain ⟨title, url⟩ := v
    intro t u post fs lc hp hfail
    obtain ⟨doc, hdoc⟩ :=
      Option.isSome_iff_exists.mp (hp (title, url) (List.mem_cons_self _ _))
    obtain ⟨ev', hrec, hcount⟩ :=
      ih t u post (download_video w fs (find_mp4_link doc pfx) sp lc title).1 (lc + 1)
        (fun l hl => hp l (List.mem_cons_of_mem _ hl)) hfail
    obtain ⟨hc0, _⟩ := download_video_trace w fs (find_mp4_link doc pfx) sp lc title
    refine ⟨[Event.pageGet url] ++
        (download_video w fs (find_mp4_link doc pfx) sp lc title).2 ++ ev', ?_, ?_⟩
    · rw [List.cons_append,
        processLessons_cons_ok w pfx sp title url (pre' ++ (t, u) :: post) fs lc doc hdoc,
        hrec, List.append_assoc]
    · rw [List.countP_append, List.countP_append, hc0, hcount]
      have h1 : List.countP isPageGet [Event.pageGet url] = 1 := rfl
      rw [h1]
      simp
      omega

theorem processSections_cons (w : World) (pfx dest sec : String)
    (videos : List (String × String)) (rest : SectionMap)
    (fs : List String) (lc sc : Nat) :
    processSections w pfx dest ((sec, videos) :: rest) fs lc sc =
      (match processLessons w pfx (get_section_path dest sc sec) videos fs lc with
      | (ev, Except.error e) => (ev, Except.error e)
      | (ev, Except.ok (fs', lc')) =>
        (ev ++ (processSections w pfx dest rest fs' lc' (sc + 1)).1,
         (processSections w pfx dest rest fs' lc' (sc + 1)).2)) := rfl

theorem processSections_ok (w : World) (pfx dest : String) :
    ∀ (sections : SectionMap) (fs : List String) (lc sc : Nat),
      (∀ l ∈ flatLessons sections, (w.page l.2).isSome = true) →
      ∃ ev fs',
        processSections w pfx dest sections fs lc sc =
          (ev, Except.ok (fs', lc + flatLen sections)) ∧
        List.countP isPageGet ev = flatLen sections ∧
        List.filterMap pathEvent ev = planSections dest sections lc sc := by
  intro sections
  induction sections with
  | nil =>
    intro fs lc sc _
    exact ⟨[], fs, by simp [processSections, flatLen, planSections], rfl, rfl⟩
  | cons s rest ih =>
    obtain ⟨sec, videos⟩ := s
    intro fs lc sc hp
    rw [flatLessons_cons] at hp
    obtain ⟨ev1, fs1, hles, hc1, hp1⟩ :=
      processLessons_ok w pfx (get_section_path dest sc sec) videos fs lc
        (fun l hl => hp l (List.mem_append_left _ hl))
    obtain ⟨ev2, fs2, hrec, hc2, hp2⟩ :=
      ih fs1 (lc + videos.length) (sc + 1)
        (fun l hl => hp l (List.mem_append_right _ hl))
    refine ⟨ev1 ++ ev2, fs2, ?_, ?_, ?_⟩
    · rw [processSections_cons, hles]
      show (ev1 ++ (processSections w pfx dest rest fs1 (lc + videos.length) (sc + 1)).1,
        (processSections w pfx dest rest fs1 (lc + videos.length) (sc + 1)).2) = _
      rw [hrec, flatLen_cons]
      have harith : lc + videos.length + flatLen rest =
          lc + (videos.length + flatLen rest) := by omega
      rw [harith]
    · rw [List.countP_append, hc1, hc2, flatLen_cons]
    · rw [List.filterMap_append, hp1, hp2]
      rfl

theorem processSections_err (w : World) (pfx dest : String) :
    ∀ (S1 : SectionMap) (sec : String) (pre : List (String × String))
      (t u : String) (post : List (String × String)) (S2 : SectionMap)
      (fs : List String) (lc sc : Nat),
      (∀ l ∈ flatLessons S1 ++ pre, (w.page l.2).isSome = true) →
      w.page u = none →
      ∃ ev,
        processSections w pfx dest (S1 ++ (sec, pre ++ (t, u) :: post) :: S2) fs lc sc =
          (ev, Except.error ("Failed to load " ++ u)) ∧
        List.countP isPageGet ev = flatLen S1 + pre.length + 1 := by
  intro S1
  induction S1 with
  | nil =>
    intro sec pre t u post S2 fs lc sc hp hfail
    obtain ⟨ev, hles, hcount⟩ :=
      processLessons_err w pfx (get_section_path dest sc sec) pre t u post fs lc
        (fun l hl => hp l (by simpa [flatLessons] using hl)) hfail
    refine ⟨ev, ?_, ?_⟩
    · rw [List.nil_append, processSections_cons, hles]
    · rw [hcount]

      simp [flatLen]
  | cons s S1' ih =>
    obtain ⟨sec1, videos1⟩ := s
    intro sec pre t u post S2 fs lc sc hp hfail
    have hp1 : ∀ l ∈ videos1, (w.page l.2).isSome = true := by
      intro l hl
      exact hp l (by
        rw [flatLessons_cons]
        exact List.mem_append_left _ (List.mem_append_left _ hl))
    obtain ⟨ev1, fs1, hles, hc1, _⟩ :=
      processLessons_ok w pfx (get_section_path dest sc sec1) videos1 fs lc hp1
    obtain ⟨ev2, hrec, hc2⟩ :=
      ih sec pre t u post S2 fs1 (lc + videos1.length) (sc + 1)
        (fun l hl => hp l (by
          rw [flatLessons_cons]
          rcases List.mem_append.mp hl with h1 | h1
          · exact List.mem_append_left _ (List.mem_append_right _ h1)
          · exact List.mem_append_right _ h1)) hfail
    refine ⟨ev1 ++ ev2, ?_, ?_⟩
    · rw [List.cons_append, processSections_cons, hles]
      show (ev1 ++ (processSections w pfx dest
          (S1' ++ (sec, pre ++ (t, u) :: post) :: S2) fs1 (lc + videos1.length) (sc + 1)).1,
        (processSections w pfx dest
          (S1' ++ (sec, pre ++ (t, u) :: post) :: S2) fs1 (lc + videos1.length) (sc + 1)).2) = _
      rw [hrec]
    · rw [List.countP_append, hc1, hc2, flatLen_cons]
      omega

/-! ### Path-plan indexing lemmas -/

theorem planLessons_length (sp : String) :
    ∀ (videos : List (String × String)) (lc : Nat),
      (planLessons sp videos lc).length = videos.length := by
  intro videos
  induction videos with
  | nil => intro lc; rfl
  | cons v rest ih =>
    obtain ⟨t, u⟩ := v
    intro lc
    simp [planLessons, ih]

theorem planLessons_getElem (sp : String) :
    ∀ (pre : List (String × String)) (t u : String)
      (post : List (String × String)) (lc : Nat),
      (planLessons sp (pre ++ (t, u) :: post) lc)[pre.length]? =
        some (get_file_path sp (lc + pre.length) t) := by
  intro pre
  induction pre with
  | nil =>
    intro t u post lc
    simp [planLessons]
  | cons v pre' ih =>
    obtain ⟨t1, u1⟩ := v
    intro t u post lc
    rw [List.cons_append]
    show (get_file_path sp lc t1 ::
      planLessons sp (pre' ++ (t, u) :: post) (lc + 1))[((t1, u1) :: pre').length]? = _
    rw [List.length_cons, List.getElem?_cons_succ, ih]
    have harith : lc + 1 + pre'.length = lc + (pre'.length + 1) := by omega
    rw [harith]

theorem planSections_getElem (dest : String) :
    ∀ (S1 : SectionMap) (sec : String) (pre : List (String × String)) (t u : String)
      (post : List (String × String)) (S2 : SectionMap) (lc sc : Nat),
      (planSections dest (S1 ++ (sec, pre ++ (t, u) :: post) :: S2) lc sc)[flatLen S1 + pre.length]? =
        some (get_file_path (get_section_path dest (sc + S1.length) sec)
          (lc + flatLen S1 + pre.length) t) := by
  intro S1
  induction S1 with
  | nil =>
    intro sec pre t u post S2 lc sc
    rw [List.nil_append]
    show (planLessons (get_section_path dest sc sec) (pre ++ (t, u) :: post) lc ++
      planSections dest S2 (lc + (pre ++ (t, u) :: post).length) (sc + 1))[flatLen [] + pre.length]? = _
    have h0 : flatLen ([] : SectionMap) = 0 := rfl
    rw [h0, Nat.zero_add]
    rw [List.getElem?_append]
    rw [if_pos (by
      rw [planLessons_length, List.length_append, List.length_cons]
      omega)]
    rw [planLessons_getElem]
    simp
  | cons s S1' ih =>
    obtain ⟨sec1, videos1⟩ := s
    intro sec pre t u post S2 lc sc
    rw [List.cons_append]
    show (planLessons (get_section_path dest sc sec1) videos1 lc ++
      planSections dest (S1' ++ (sec, pre ++ (t, u) :: post) :: S2)
        (lc + videos1.length) (sc + 1))[flatLen ((sec1, videos1) :: S1') + pre.length]? = _
    rw [flatLen_cons]
    rw [List.getElem?_append_right (by rw [planLessons_length]; omega)]
    rw [planLessons_length]
    have hidx : videos1.length + flatLen S1' + pre.length - videos1.length =
        flatLen S1' + pre.length := by omega
    rw [hidx, ih]
    have e1 : sc + 1 + S1'.length = sc + ((sec1, videos1) :: S1').length := by
      rw [List.length_cons]
      omega
    have e2 : lc + videos1.length + flatLen S1' + pre.length =
        lc + (videos1.length + flatLen S1') + pre.length := by omega
    rw [e1, e2]

/-! ### Concrete worlds used as witnesses -/

/-- A network where every lesson page resolves and every download
succeeds. -/
def exWorld : World :=
  ⟨fun _ => some [⟨"v", "/files/fil_1"⟩], fun _ => Transfer.ok [7]⟩

/-- A network where the lesson page at `"u3"` returns a non-success
status and every other page resolves. -/
def exWorldFail : World :=
  ⟨fun s => if s = "u3" then none else some [⟨"v", "/files/fil_1"⟩],
   fun _ => Transfer.ok [7]⟩

/-- A network where lesson pages carry no matching media link (so the
resolver yields the empty URL) and every media GET raises before
connecting — as `requests` does on an empty address. -/
def exWorldConn : World :=
  ⟨fun _ => some [], fun _ => Transfer.errConn⟩

/-- A two-section, three-lesson section map. -/
def exSections : SectionMap :=
  [("S1", [("a", "u1"), ("b", "u2")]), ("S2", [("c", "u3")])]

/-! ### Claim C2 -/

/-- C2: in `download_videos` the destination path of the lesson at
global document-order position `flatLen S1 + |pre|` (0-based), sitting
in the retained section at position `|S1|` (0-based), is
`get_file_path (get_section_path dest (|S1|+1) sec) (flatLen S1 + |pre| + 1) title`,
i.e. `<dest>/<NN>_<SectionName>/<MMM>_<LessonTitle>.mp4` with NN the
two-digit section index starting at 1 (incremented once per section) and
MMM the three-digit global lesson index starting at 1 (incremented once
per lesson, never reset); and the orchestrator names exactly these paths
for its lessons, in order, independent of whether each download
succeeded, failed, or was skipped. -/
theorem claim_C2 :
    (∀ (S1 : SectionMap) (sec : String) (pre : List (String × String)) (t u : String)
      (post : List (String × String)) (S2 : SectionMap) (destination : String),
      (download_videos_paths (S1 ++ (sec, pre ++ (t, u) :: post) :: S2)
          destination)[flatLen S1 + pre.length]? =
        some (get_file_path (get_section_path destination (S1.length + 1) sec)
          (flatLen S1 + pre.length + 1) t)) ∧
    (∀ (destination sec t : String) (n m : Nat),
      get_file_path (get_section_path destination n sec) m t =
        destination ++ "/" ++ zpad 2 n ++ "_" ++ sec ++ "/" ++
          zpad 3 m ++ "_" ++ t ++ ".mp4") ∧
    (∀ (w : World) (sections : SectionMap) (destination pfx : String) (fs : List String),
      (∀ l ∈ flatLessons sections, (w.page l.2).isSome = true) →
      List.filterMap pathEvent (download_videos w sections destination pfx fs).1 =
        download_videos_paths sections destination) := by
  refine ⟨?_, ?_, ?_⟩
  · intro S1 sec pre t u post S2 destination
    have h := planSections_getElem destination S1 sec pre t u post S2 1 1
    have e1 : 1 + S1.length = S1.length + 1 := by omega
    have e2 : 1 + flatLen S1 + pre.length = flatLen S1 + pre.length + 1 := by omega
    rw [e1, e2] at h
    exact h
  · intro destination sec t n m
    apply String.ext
    rw [path_data]
    have h1 : "/".data = ['/'] := rfl
    have h2 : "_".data = ['_'] := rfl
    simp [String.data_append, h1, h2, List.append_assoc]
  · intro w sections destination pfx fs hp
    obtain ⟨ev, fs', heq, _, hplan⟩ := processSections_ok w pfx destination sections fs 1 1 hp
    show List.filterMap pathEvent (processSections w pfx destination sections fs 1 1).1 = _
    rw [heq]
    exact hplan

/-- C2 witness: the path-naming conjunct applied to a concrete
two-section run in which every page resolves. -/
theorem claim_C2_witness :
    List.filterMap pathEvent (download_videos exWorld exSections "d" "p" []).1 =
      download_videos_paths exSections "d" :=
  claim_C2.2.2 exWorld exSections "d" "p" [] (fun _ _ => rfl)

/-! ### Claim C3 -/

/-- C3: when the destination path already exists, `download_video`
returns having performed no network request and no file write (it only
logs the skip), leaving the filesystem unchanged; in particular a second
call whose destination was created by a first call performs no network
activity. -/
theorem claim_C3 (w : World) (fs : List String) (url section_path : String)
    (lesson_num : Nat) (filename : String)
    (h : file_already_downloaded fs
      (get_file_path section_path lesson_num filename) = true) :
    download_video w fs url section_path lesson_num filename =
      (fs, [Event.skipLog (get_file_path section_path lesson_num filename)]) ∧
    (∀ u', Event.mediaGet u' ∉
      (download_video w fs url section_path lesson_num filename).2) ∧
    (∀ p', Event.fileWrite p' ∉
      (download_video w fs url section_path lesson_num filename).2) ∧
    (∀ (w' : World) (fs1 : List String),
      file_already_downloaded
          (download_video w' fs1 url section_path lesson_num filename).1
          (get_file_path section_path lesson_num filename) = true →
      download_video w' (download_video w' fs1 url section_path lesson_num filename).1
          url section_path lesson_num filename =
        ((download_video w' fs1 url section_path lesson_num filename).1,
         [Event.skipLog (get_file_path section_path lesson_num filename)])) := by
  refine ⟨download_video_skip w fs url _ _ _ h, ?_, ?_, ?_⟩
  · intro u' hc
    rw [download_video_skip w fs url _ _ _ h] at hc
    simp at hc
  · intro p' hc
    rw [download_video_skip w fs url _ _ _ h] at hc
    simp at hc
  · intro w' fs1 h1
    exact download_video_skip w' _ url _ _ _ h1

/-- C3 witness: a call whose destination path is already present only
logs the skip. -/
theorem claim_C3_witness :
    download_video exWorld [get_file_path "d" 1 "t"] "u" "d" 1 "t" =
      ([get_file_path "d" 1 "t"], [Event.skipLog (get_file_path "d" 1 "t")]) :=
  (claim_C3 exWorld [get_file_path "d" 1 "t"] "u" "d" 1 "t"
    (by simp [file_already_downloaded])).1

/-! ### Claim C4 -/

/-- C4: when the lesson-page fetch of some lesson returns a non-success
status (all earlier lessons' pages resolving), the raised error
propagates uncaught through `get_mp4_url` and the orchestrator's loop:
`download_videos` aborts with that error and exactly the earlier lessons
plus the failing one have performed page fetches — no subsequent lesson
is processed.  In contrast (second conjunct), when every page resolves
the run succeeds regardless of download-stage outcomes, which are caught
per item. -/
theorem claim_C4 (w : World) (destination pfx : String) (fs : List String)
    (S1 : SectionMap) (sec : String) (pre : List (String × String)) (t u : String)
    (post : List (String × String)) (S2 : SectionMap)
    (hpages : ∀ l ∈ flatLessons S1 ++ pre, (w.page l.2).isSome = true)
    (hfail : w.page u = none) :
    (∃ ev,
      download_videos w (S1 ++ (sec, pre ++ (t, u) :: post) :: S2) destination pfx fs =
        (ev, Except.error ("Failed to load " ++ u)) ∧
      List.countP isPageGet ev = flatLen S1 + pre.length + 1) ∧
    (∀ w' : World,
      (∀ l ∈ flatLessons (S1 ++ (sec, pre ++ (t, u) :: post) :: S2),
        (w'.page l.2).isSome = true) →
      (download_videos w' (S1 ++ (sec, pre ++ (t, u) :: post) :: S2)
          destination pfx fs).2.isOk = true) := by
  constructor
  · obtain ⟨ev, heq, hcount⟩ :=
      processSections_err w pfx destination S1 sec pre t u post S2 fs 1 1 hpages hfail
    exact ⟨ev, heq, hcount⟩
  · intro w' hp'
    obtain ⟨ev, fs', heq, _, _⟩ :=
      processSections_ok w' pfx destination (S1 ++ (sec, pre ++ (t, u) :: post) :: S2)
        fs 1 1 hp'
    show (processSections w' pfx destination
      (S1 ++ (sec, pre ++ (t, u) :: post) :: S2) fs 1 1).2.isOk = true
    rw [heq]
    rfl

/-- C4 witness: the abort behaviour at a concrete run whose third lesson
page (first lesson of the second section) fails: two earlier page
fetches plus the failing one occur, and the run ends in the propagated
error. -/
theorem claim_C4_witness :
    ∃ ev,
      download_videos exWorldFail
          ([("S1", [("a", "u1"), ("b", "u2")])] ++
            ("S2", [] ++ ("c", "u3") :: []) :: []) "d" "p" [] =
        (ev, Except.error ("Failed to load " ++ "u3")) ∧
      List.countP isPageGet ev =
        flatLen [("S1", [("a", "u1"), ("b", "u2")])] +
          List.length ([] : List (String × String)) + 1 :=
  (claim_C4 exWorldFail "d" "p" [] [("S1", [("a", "u1"), ("b", "u2")])] "S2"
    [] "c" "u3" [] [] (by decide) (by decide)).1

/-! ### Claim C6 -/

/-- C6: every transport-level failure of a single item's download — a
non-success status at download start (`raise_for_status`), a failure of
the GET itself (as produced by an empty resolved URL), or a transport
exception mid-stream — makes the `try` body of `download_file` raise,
and `download_file` catches it and returns normally; consequently, when
every lesson page resolves, the orchestrator's loop reaches every lesson
and the run succeeds no matter how the individual downloads fare. -/
theorem claim_C6 :
    (∀ (w : World) (fs : List String) (url file_path : String)
      (efs : List String) (eev : List Event),
      download_file_body w fs url file_path = Except.error (efs, eev) →
      download_file w fs url file_path = (efs, Event.initLog file_path :: eev)) ∧
    (∀ (w : World) (url : String),
      w.media url = Transfer.errStatus ∨ w.media url = Transfer.errConn ∨
        (∃ c, w.media url = Transfer.errMid c) →
      ∀ (fs : List String) (file_path : String),
        ∃ efs eev, download_file_body w fs url file_path = Except.error (efs, eev)) ∧
    (∀ (w : World) (sections : SectionMap) (destination pfx : String)
      (fs : List String),
      (∀ l ∈ flatLessons sections, (w.page l.2).isSome = true) →
      (download_videos w sections destination pfx fs).2.isOk = true ∧
      List.countP isPageGet (download_videos w sections destination pfx fs).1 =
        flatLen sections) := by
  refine ⟨?_, ?_, ?_⟩
  · intro w fs url file_path efs eev h
    unfold download_file
    rw [h]
  · intro w url h fs file_path
    unfold download_file_body
    rcases h with h | h | ⟨c, h⟩ <;> rw [h]
    · exact ⟨fs, [Event.mediaGet url], rfl⟩
    · exact ⟨fs, [Event.mediaGet url], rfl⟩
    · exact ⟨file_path :: fs, [Event.mediaGet url, Event.fileWrite file_path], rfl⟩
  · intro w sections destination pfx fs hp
    obtain ⟨ev, fs', heq, hcount, _⟩ :=
      processSections_ok w pfx destination sections fs 1 1 hp
    constructor
    · show (processSections w pfx destination sections fs 1 1).2.isOk = true
      rw [heq]
      rfl
    · show List.countP isPageGet
        (processSections w pfx destination sections fs 1 1).1 = flatLen sections
      rw [heq]
      exact hcount

/-- C6 witness: a world where the resolver finds no media link (empty
URL) and every media GET raises before connecting: the single download's
body raises and is caught, and a full three-lesson run still succeeds
with all three pages fetched. -/
theorem claim_C6_witness :
    download_file exWorldConn [] "" "fp" =
      ([], Event.initLog "fp" :: [Event.mediaGet ""]) ∧
    (download_videos exWorldConn exSections "d" "p" []).2.isOk = true :=
  ⟨claim_C6.1 exWorldConn [] "" "fp" [] [Event.mediaGet ""] rfl,
   (claim_C6.2.2 exWorldConn exSections "d" "p" [] (fun _ _ => rfl)).1⟩
